import Mathlib

set_option maxRecDepth 40000

/-!
# Verification of the near-duplicate pruning pass (`normalization.py`)

This file is a shallow embedding of the algorithmic core of the repository's
`normalization.py`: the text normalizer (`normalize_text`), the sort-based
clustering step (`data.sort(key=lambda x: x['clean'])`), the bounded-window
duplicate scan with its two-tier exact/fuzzy decision rule (`clean_database`,
the nested `for i` / `for j` loops), and the confirmation-gated batched
deletion step.  Machine reals are modelled by `ℚ` (all quantities involved are
small exact fractions, far from any double-rounding boundary), Python strings
by Lean `String`, the Python `set` of ids by `Finset ℕ`, and the SQLite table
by an association list of `(id, text)` rows.
-/

/-- One character of the class `[a-z0-9]` that `re.sub(r'[^a-z0-9]', '', ·)`
keeps: the character codes 97–122 are `a`–`z` and 48–57 are `0`–`9`. -/
def isKeyChar (c : Char) : Bool :=
  (97 ≤ c.toNat && c.toNat ≤ 122) || (48 ≤ c.toNat && c.toNat ≤ 57)

/-- Python's `str.lower` on the character range the pass works with: the
ASCII uppercase letters 65–90 (`A`–`Z`) are shifted to 97–122; every other
character is returned unchanged. -/
def lowerChar (c : Char) : Char :=
  if 65 ≤ c.toNat && c.toNat ≤ 90 then Char.ofNat (c.toNat + 32) else c

/-- `normalize_text` from `normalization.py`: lowercase the text, then delete
every character outside `[a-z0-9]` (the regex `re.sub(r'[^a-z0-9]', '', text.lower())`).
The `if not text: return ""` guard is subsumed: an empty string maps to the
empty string. -/
def normalize_text (s : String) : String :=
  ⟨(s.data.map lowerChar).filter isKeyChar⟩

/-- The in-memory candidate built per fetched row: `{'id': …, 'text': …,
'clean': normalize_text(text)}`. -/
structure Cand where
  id : Nat
  text : String
  clean : String
  deriving DecidableEq, Repr

/-- Building one candidate dict from a fetched `(id, text)` row. -/
def toCand (r : Nat × String) : Cand :=
  ⟨r.1, r.2, normalize_text r.2⟩

/-- Stable insertion of `a` into `l`: `a` is placed before the first element
`b` with `¬ lt b a`.  Helper for `stSort`. -/
def stIns (lt : Cand → Cand → Bool) (a : Cand) : List Cand → List Cand
  | [] => [a]
  | b :: l => if lt b a then b :: stIns lt a l else a :: b :: l

/-- A stable sort (elements are inserted left-to-right, each placed after all
strictly smaller earlier elements and before equal ones).  Python's
`list.sort` is stable, so this computes the same list as
`data.sort(key=lambda x: x['clean'])` when `lt` compares the `clean` field. -/
def stSort (lt : Cand → Cand → Bool) : List Cand → List Cand
  | [] => []
  | a :: l => stIns lt a (stSort lt l)

/-- Lexicographic code-point comparison of character lists: how Python
compares `str` values.  (Lean's `String` order is the same relation; this
Boolean version recurses structurally so the kernel can evaluate it.) -/
def ltChars : List Char → List Char → Bool
  | [], [] => false
  | [], _ :: _ => true
  | _ :: _, [] => false
  | a :: as, b :: bs => if a = b then ltChars as bs else decide (a.toNat < b.toNat)

/-- Strict lexicographic order on strings, by code point. -/
def strLt (a b : String) : Bool := ltChars a.data b.data

/-- The comparison used by `data.sort(key=lambda x: x['clean'])`: candidates
are ordered by the `clean` string only (Python compares `str` by code point). -/
def cleanLt (a b : Cand) : Bool := strLt a.clean b.clean

/-- The sorted candidate list that `clean_database` scans: rows are turned
into candidate dicts and stably sorted by the `clean` key. -/
def sortData (rows : List (Nat × String)) : List Cand :=
  stSort cleanLt (rows.map toCand)

/-- Inner recursion of the indel distance: `indelGo f x ys` computes the
indel distance between `x :: xs` and `ys`, where `f` computes the distance
between `xs` and an arbitrary second string.  The two-function formulation
makes both recursions structural, so the kernel can evaluate them. -/
def indelGo (f : List Char → Nat) (x : Char) : List Char → Nat
  | [] => 1 + f []
  | y :: ys => if x = y then f ys else 1 + min (f (y :: ys)) (indelGo f x ys)

/-- The indel (insert/delete only) edit distance between two strings, the
metric underlying `Levenshtein.ratio`: it equals the ordinary Levenshtein
distance in which a substitution is charged 2 (one delete plus one insert). -/
def indelDist : List Char → List Char → Nat
  | [], ys => ys.length
  | x :: xs, ys => indelGo (indelDist xs) x ys

/-- `Levenshtein.ratio(a, b)` of the `Levenshtein` Python package: the
normalized indel similarity `(|a| + |b| − indelDist(a, b)) / (|a| + |b|)`,
defined as `1.0` when both strings are empty.  Written with `mkRat` (an exact
rational); the C `double` the library returns agrees with this exact value at
every comparison the pass performs. -/
def pyRatio (a b : String) : ℚ :=
  let s := a.length + b.length
  if s = 0 then 1 else mkRat ((s : Int) - (indelDist a.data b.data : Int)) s

/-- Inner recursion of `lcsLen`, in the same structural two-function style
as `indelGo`. -/
def lcsGo (f : List Char → Nat) (x : Char) : List Char → Nat
  | [] => 0
  | y :: ys => if x = y then 1 + f ys else max (f (y :: ys)) (lcsGo f x ys)

/-- Length of a longest common subsequence of two strings.  Used to state the
closed form of the indel similarity: `indelDist a b = |a| + |b| − 2·lcsLen a b`. -/
def lcsLen : List Char → List Char → Nat
  | [], _ => 0
  | x :: xs, ys => lcsGo (lcsLen xs) x ys

/-- Inner recursion of `levDist`, in the same structural two-function style
as `indelGo`. -/
def levGo (f : List Char → Nat) (x : Char) : List Char → Nat
  | [] => 1 + f []
  | y :: ys => if x = y then f ys else 1 + min (f ys) (min (f (y :: ys)) (levGo f x ys))

/-- The standard unit-cost Levenshtein distance (insertions, deletions and
substitutions all cost 1).  This is the `editDistance` the specification's
ratio formula refers to; it is not what `Levenshtein.ratio` is built from. -/
def levDist : List Char → List Char → Nat
  | [], ys => ys.length
  | x :: xs, ys => levGo (levDist xs) x ys

/-- The similarity formula as the specification words it:
`1 − editDistance(a, b) / max(len(a), len(b), 1)` with `editDistance` the
standard unit-cost Levenshtein distance.  Stated with `mkRat`:
`(M − d) / M = 1 − d / M` for `M = max(len(a), len(b), 1) ≥ 1`. -/
def specRatio (a b : String) : ℚ :=
  let M := max (max a.length b.length) 1
  mkRat ((M : Int) - (levDist a.data b.data : Int)) M

/-- `SIMILARITY_THRESHOLD = 0.90` from `normalization.py`. -/
def SIMILARITY_THRESHOLD : ℚ := mkRat 9 10

/-- `WINDOW_SIZE = 10` from `normalization.py`. -/
def WINDOW_SIZE : Nat := 10

/-- The inner `for j in range(1, WINDOW_SIZE + 1)` loop of `clean_database`,
for one anchor `a` over its (already truncated) window `l` of successors:
* a neighbor already in the deletion set is skipped;
* on an exact `clean` match, the neighbor is deleted when the anchor's
  literal text is at least as long, otherwise the anchor itself is deleted
  and the loop `break`s;
* otherwise, on `Levenshtein.ratio ≥ SIMILARITY_THRESHOLD` the neighbor is
  deleted; in all non-`break` cases scanning continues with the next
  neighbor. -/
def innerScan (θ : ℚ) (a : Cand) : List Cand → Finset Nat → Finset Nat
  | [], dels => dels
  | n :: rest, dels =>
    if n.id ∈ dels then innerScan θ a rest dels
    else if a.clean = n.clean then
      if n.text.length ≤ a.text.length then
        innerScan θ a rest (insert n.id dels)
      else
        insert a.id dels
    else if θ ≤ pyRatio a.clean n.clean then
      innerScan θ a rest (insert n.id dels)
    else
      innerScan θ a rest dels

/-- The outer `for i in tqdm(range(len(data)))` loop of `clean_database`: an
anchor already in the deletion set is skipped; otherwise its window is the
next `W` list entries (`data[i+1 … i+W]`, cut off at the end of the list,
which is exactly `rest.take W`). -/
def outerScan (θ : ℚ) (W : Nat) : List Cand → Finset Nat → Finset Nat
  | [], dels => dels
  | a :: rest, dels =>
    outerScan θ W rest (if a.id ∈ dels then dels else innerScan θ a (rest.take W) dels)

/-- The whole scanning phase of `clean_database` (steps 1–3), parameterized
by the two configuration constants: build candidates, sort stably by the
clean key, scan with an empty initial deletion set. -/
def cleanPass (θ : ℚ) (W : Nat) (rows : List (Nat × String)) : Finset Nat :=
  outerScan θ W (sortData rows) ∅

/-- The scanning phase with the configuration constants of `normalization.py`. -/
def cleanScan (rows : List (Nat × String)) : Finset Nat :=
  cleanPass SIMILARITY_THRESHOLD WINDOW_SIZE rows

/-- One `DELETE FROM … WHERE id IN (batch)` statement: every row whose id is
in the batch disappears from the table. -/
def deleteBatch (batch : List Nat) (table : List (Nat × String)) : List (Nat × String) :=
  table.filter (fun r => decide (r.1 ∉ batch))

/-- The batched deletion loop of `clean_database`
(`for k in range(0, len(id_list), batch_size)` with `batch_size = 900`):
delete the first 900 ids, recurse on the rest. -/
def runBatches : List Nat → List (Nat × String) → List (Nat × String)
  | [], table => table
  | i :: rest, table =>
      runBatches ((i :: rest).drop 900) (deleteBatch ((i :: rest).take 900) table)
  termination_by ids _ => ids.length
  decreasing_by simp; omega

/-- Step 4 of `clean_database`: if the computed deletion count is non-zero,
the confirmation prompt's answer is consulted, and only the literal reply
`"YES"` triggers the batched deletion; any other reply, or an empty deletion
set, leaves the table untouched. -/
def executeDeletion (ids : List Nat) (response : String) (table : List (Nat × String)) :
    List (Nat × String) :=
  if 0 < ids.length then
    if response = "YES" then runBatches ids table else table
  else table

/-! ## Basic facts about the string order and the stable sort -/

theorem ltChars_iff_lex (as bs : List Char) :
    ltChars as bs = true ↔ List.Lex (· < ·) as bs := by
  induction as generalizing bs with
  | nil =>
    cases bs with
    | nil => simp [ltChars, List.Lex.not_nil_right]
    | cons b bs => simp [ltChars]; exact List.Lex.nil
  | cons a as ih =>
    cases bs with
    | nil => simp [ltChars, List.Lex.not_nil_right]
    | cons b bs =>
      by_cases hab : a = b
      · subst hab
        rw [List.Lex.cons_iff]
        simpa [ltChars] using ih bs
      · simp only [ltChars, if_neg hab, decide_eq_true_eq]
        constructor
        · intro h
          exact List.Lex.rel (by rw [Char.lt_def]; exact h)
        · intro h
          cases h with
          | rel h => rw [Char.lt_def] at h; exact h
          | cons h => exact absurd rfl hab

theorem strLt_iff (a b : String) : strLt a b = true ↔ a < b := by
  rw [String.lt_iff_toList_lt]
  exact ltChars_iff_lex a.data b.data

theorem strLt_false_iff (a b : String) : strLt a b = false ↔ b ≤ a := by
  rw [Bool.eq_false_iff, Ne, strLt_iff]
  exact not_lt

theorem mem_stIns (lt : Cand → Cand → Bool) (x y : Cand) (l : List Cand) :
    y ∈ stIns lt x l ↔ y = x ∨ y ∈ l := by
  induction l with
  | nil => simp [stIns]
  | cons b l ih =>
    by_cases h : lt b x = true
    · simp [stIns, h, ih]; tauto
    · simp [stIns, h]

theorem stIns_perm (lt : Cand → Cand → Bool) (x : Cand) (l : List Cand) :
    (stIns lt x l).Perm (x :: l) := by
  induction l with
  | nil => simp [stIns]
  | cons b l ih =>
    by_cases h : lt b x = true
    · simp only [stIns, if_pos h]
      exact (ih.cons b).trans (List.Perm.swap x b l)
    · simp [stIns, h]

theorem stSort_perm (lt : Cand → Cand → Bool) (l : List Cand) :
    (stSort lt l).Perm l := by
  induction l with
  | nil => simp [stSort]
  | cons a l ih =>
    exact (stIns_perm lt a (stSort lt l)).trans (ih.cons a)

theorem stIns_sorted (x : Cand) (l : List Cand)
    (hl : l.Pairwise (fun a b => a.clean ≤ b.clean)) :
    (stIns cleanLt x l).Pairwise (fun a b => a.clean ≤ b.clean) := by
  induction l with
  | nil => simp [stIns]
  | cons b l ih =>
    rw [List.pairwise_cons] at hl
    by_cases h : cleanLt b x = true
    · simp only [stIns, if_pos h]
      rw [List.pairwise_cons]
      refine ⟨fun y hy => ?_, ih hl.2⟩
      rw [mem_stIns] at hy
      rcases hy with rfl | hy
      · exact le_of_lt ((strLt_iff _ _).1 h)
      · exact hl.1 y hy
    · simp only [stIns, if_neg h]
      rw [Bool.not_eq_true, cleanLt, strLt_false_iff] at h
      rw [List.pairwise_cons]
      refine ⟨fun y hy => ?_, List.pairwise_cons.2 hl⟩
      rcases List.mem_cons.1 hy with rfl | hy
      · exact h
      · exact h.trans (hl.1 y hy)

theorem stSort_sorted (l : List Cand) :
    (stSort cleanLt l).Pairwise (fun a b => a.clean ≤ b.clean) := by
  induction l with
  | nil => simp [stSort]
  | cons a l ih => exact stIns_sorted a (stSort cleanLt l) ih

theorem strLt_self (a : String) : strLt a a = false := by
  rw [← Bool.not_eq_true, strLt_iff]
  exact lt_irrefl a

theorem filter_stIns (k : String) (x : Cand) (l : List Cand) :
    (stIns cleanLt x l).filter (fun c => decide (c.clean = k)) =
      (x :: l).filter (fun c => decide (c.clean = k)) := by
  induction l with
  | nil => simp [stIns]
  | cons b l ih =>
    by_cases h : cleanLt b x = true
    · have hbx : b.clean ≠ x.clean := by
        intro he
        rw [cleanLt, he, strLt_self] at h
        exact Bool.false_ne_true h
      simp only [stIns, if_pos h, List.filter_cons]
      rw [ih]
      simp only [List.filter_cons]
      by_cases hbk : b.clean = k
      · have hxk : ¬ x.clean = k := fun hxk => hbx (hbk.trans hxk.symm)
        simp [hbk, hxk]
      · simp [hbk]
    · simp [stIns, h]

theorem filter_stSort (k : String) (l : List Cand) :
    (stSort cleanLt l).filter (fun c => decide (c.clean = k)) =
      l.filter (fun c => decide (c.clean = k)) := by
  induction l with
  | nil => simp [stSort]
  | cons a l ih =>
    show (stIns cleanLt a (stSort cleanLt l)).filter _ = _
    rw [filter_stIns]
    simp only [List.filter_cons]
    rw [ih]

/-! ## Normalization -/

theorem lowerChar_key (c : Char) (h : isKeyChar c = true) : lowerChar c = c := by
  simp only [isKeyChar, Bool.or_eq_true, Bool.and_eq_true, decide_eq_true_eq] at h
  have hno : ¬ ((65 ≤ c.toNat && c.toNat ≤ 90) = true) := by
    simp only [Bool.and_eq_true, decide_eq_true_eq, not_and]
    omega
  simp only [lowerChar, if_neg hno]

theorem key_filter_fixed (l : List Char) (h : ∀ c ∈ l, isKeyChar c = true) :
    (l.map lowerChar).filter isKeyChar = l := by
  induction l with
  | nil => simp
  | cons c l ih =>
    have hc := h c (List.mem_cons_self c l)
    rw [List.map_cons, lowerChar_key c hc, List.filter_cons, if_pos hc,
      ih (fun d hd => h d (List.mem_cons_of_mem c hd))]

/-- **C9**: `normalize_text` is idempotent: its output consists only of
characters in `[a-z0-9]`, which `str.lower` fixes and the regex keeps, so
reapplying the function to its own output changes nothing. -/
theorem normalize_idempotent (s : String) :
    normalize_text (normalize_text s) = normalize_text s := by
  apply congrArg String.mk
  exact key_filter_fixed _ (fun c hc => List.of_mem_filter hc)

/-! ## The two branches of the similarity judge -/

/-- **C1**: in the exact-match branch (`anchor.clean == neighbor.clean`), for
a live (not-yet-deleted) neighbor: if the anchor's literal text is at least
as long, the neighbor's id is inserted and the scan proceeds to the anchor's
further neighbors; otherwise the anchor's own id is inserted and the
neighbor scan stops immediately (the remaining window `rest` is never
examined). -/
theorem exact_match_branch (θ : ℚ) (a n : Cand) (rest : List Cand) (dels : Finset ℕ)
    (hlive : n.id ∉ dels) (hkey : a.clean = n.clean) :
    innerScan θ a (n :: rest) dels =
      if n.text.length ≤ a.text.length then
        innerScan θ a rest (insert n.id dels)
      else
        insert a.id dels := by
  by_cases hlen : n.text.length ≤ a.text.length
  · simp [innerScan, hlive, hkey, hlen]
  · simp [innerScan, hlive, hkey, hlen]

/-- Witness for **C1**, on both sides of the length comparison: anchor text
`"ab!"` (length 3) versus neighbor text `"ab"` (length 2) deletes the
neighbor and continues; anchor `"ab"` versus neighbor `"ab!"` deletes the
anchor itself with the window cut short. -/
theorem exact_match_branch_witness :
    innerScan (mkRat 9 10) ⟨1, "ab!", "ab"⟩ [⟨2, "ab", "ab"⟩] ∅ = {2} ∧
    innerScan (mkRat 9 10) ⟨1, "ab", "ab"⟩ [⟨2, "ab!", "ab"⟩, ⟨3, "ab", "ab"⟩] ∅ = {1} := by
  constructor
  · rw [exact_match_branch (mkRat 9 10) ⟨1, "ab!", "ab"⟩ ⟨2, "ab", "ab"⟩ [] ∅
      (Finset.not_mem_empty 2) rfl]
    decide
  · rw [exact_match_branch (mkRat 9 10) ⟨1, "ab", "ab"⟩ ⟨2, "ab!", "ab"⟩ [⟨3, "ab", "ab"⟩] ∅
      (Finset.not_mem_empty 2) rfl]
    decide

/-- **C2**: in the fuzzy branch (canonical keys differ), for a live neighbor:
the neighbor's id is inserted exactly when `Levenshtein.ratio ≥ θ` (`≥` is
inclusive, so a ratio equal to the threshold matches); in both outcomes the
anchor survives and scanning continues with the anchor's further neighbors. -/
theorem fuzzy_match_branch (θ : ℚ) (a n : Cand) (rest : List Cand) (dels : Finset ℕ)
    (hlive : n.id ∉ dels) (hkey : a.clean ≠ n.clean) :
    innerScan θ a (n :: rest) dels =
      innerScan θ a rest
        (if θ ≤ pyRatio a.clean n.clean then insert n.id dels else dels) := by
  by_cases hr : θ ≤ pyRatio a.clean n.clean
  · simp [innerScan, hlive, hkey, hr]
  · simp [innerScan, hlive, hkey, hr]

/-- Witness for **C2**, exactly at the threshold boundary and strictly below
it: the keys `"aaaaaaaaaa"`/`"aaaaaaaaab"` have ratio `18/20 = 0.90`
(equal to the default threshold, hence a match), while
`"aaaaaaaaaa"`/`"aaaaaaaabb"` have ratio `16/20 = 0.80` (no match). -/
theorem fuzzy_match_branch_witness :
    pyRatio "aaaaaaaaaa" "aaaaaaaaab" = SIMILARITY_THRESHOLD ∧
    innerScan SIMILARITY_THRESHOLD ⟨1, "x", "aaaaaaaaaa"⟩ [⟨2, "y", "aaaaaaaaab"⟩] ∅ = {2} ∧
    innerScan SIMILARITY_THRESHOLD ⟨1, "x", "aaaaaaaaaa"⟩ [⟨2, "y", "aaaaaaaabb"⟩] ∅ = ∅ := by
  refine ⟨by decide, ?_, ?_⟩
  · rw [fuzzy_match_branch SIMILARITY_THRESHOLD ⟨1, "x", "aaaaaaaaaa"⟩ ⟨2, "y", "aaaaaaaaab"⟩
      [] ∅ (Finset.not_mem_empty 2) (by decide)]
    decide
  · rw [fuzzy_match_branch SIMILARITY_THRESHOLD ⟨1, "x", "aaaaaaaaaa"⟩ ⟨2, "y", "aaaaaaaabb"⟩
      [] ∅ (Finset.not_mem_empty 2) (by decide)]
    decide

/-! ## The similarity ratio: what `Levenshtein.ratio` actually computes -/

theorem indelDist_nil_right (xs : List Char) : indelDist xs [] = xs.length := by
  induction xs with
  | nil => rfl
  | cons x xs ih =>
    show 1 + indelDist xs [] = xs.length + 1
    omega

theorem indelDist_cons_cons (x y : Char) (xs ys : List Char) :
    indelDist (x :: xs) (y :: ys) =
      if x = y then indelDist xs ys
      else 1 + min (indelDist xs (y :: ys)) (indelDist (x :: xs) ys) := rfl

theorem lcsLen_nil_right (xs : List Char) : lcsLen xs [] = 0 := by
  cases xs <;> rfl

theorem lcsLen_cons_cons (x y : Char) (xs ys : List Char) :
    lcsLen (x :: xs) (y :: ys) =
      if x = y then 1 + lcsLen xs ys
      else max (lcsLen xs (y :: ys)) (lcsLen (x :: xs) ys) := rfl

theorem lcsLen_le_left (xs ys : List Char) : lcsLen xs ys ≤ xs.length := by
  induction xs generalizing ys with
  | nil => simp [lcsLen]
  | cons x xs ih =>
    induction ys with
    | nil => simp [lcsLen_nil_right]
    | cons y ys ihy =>
      rw [lcsLen_cons_cons]
      by_cases h : x = y
      · have := ih ys
        simp only [if_pos h, List.length_cons]
        omega
      · have h1 := ih (y :: ys)
        have h2 := ihy
        simp only [if_neg h, List.length_cons] at *
        omega

theorem lcsLen_le_right (xs ys : List Char) : lcsLen xs ys ≤ ys.length := by
  induction xs generalizing ys with
  | nil => simp [lcsLen]
  | cons x xs ih =>
    induction ys with
    | nil => simp [lcsLen_nil_right]
    | cons y ys ihy =>
      rw [lcsLen_cons_cons]
      by_cases h : x = y
      · have := ih ys
        simp only [if_pos h, List.length_cons]
        omega
      · have h1 := ih (y :: ys)
        have h2 := ihy
        simp only [if_neg h, List.length_cons] at *
        omega

/-- Closed form of the indel distance: `indelDist xs ys = |xs| + |ys| − 2·lcsLen xs ys`,
stated additively so no truncated subtraction appears. -/
theorem indelDist_add_two_lcs (xs ys : List Char) :
    indelDist xs ys + 2 * lcsLen xs ys = xs.length + ys.length := by
  induction xs generalizing ys with
  | nil => simp [indelDist, lcsLen]
  | cons x xs ih =>
    induction ys with
    | nil => simp [indelDist_nil_right, lcsLen_nil_right]
    | cons y ys ihy =>
      rw [indelDist_cons_cons, lcsLen_cons_cons]
      by_cases h : x = y
      · have := ih ys
        simp only [if_pos h, List.length_cons]
        omega
      · have h1 := ih (y :: ys)
        have h2 := ihy
        have b1 := lcsLen_le_left xs (y :: ys)
        have b2 := lcsLen_le_right xs (y :: ys)
        have b3 := lcsLen_le_left (x :: xs) ys
        have b4 := lcsLen_le_right (x :: xs) ys
        simp only [if_neg h, List.length_cons] at *
        omega

/-- `specRatio` is the specification's formula written with exact rational
division: `1 − editDistance / max(len(a), len(b), 1)`. -/
theorem specRatio_eq_formula (a b : String) :
    specRatio a b =
      1 - (levDist a.data b.data : ℚ) / ((max (max a.length b.length) 1 : ℕ) : ℚ) := by
  unfold specRatio
  rw [Rat.mkRat_eq_div]
  have hM : ((max (max a.length b.length) 1 : ℕ) : ℚ) ≠ 0 := by
    positivity
  push_cast
  push_cast at hM
  field_simp

/-- `pyRatio` written with exact rational division:
`(|a| + |b| − indelDist(a,b)) / (|a| + |b|)` away from the empty-empty case. -/
theorem pyRatio_eq_div (a b : String) (h : a.length + b.length ≠ 0) :
    pyRatio a b =
      (((a.length + b.length : ℕ) : ℚ) - (indelDist a.data b.data : ℚ)) /
        ((a.length + b.length : ℕ) : ℚ) := by
  unfold pyRatio
  rw [if_neg h, Rat.mkRat_eq_div]
  push_cast
  ring

/-- **C3, counterexample**: on the canonical keys `"ab"` and `"ba"` the
ratio the Judge uses (`Levenshtein.ratio`, the normalized indel similarity)
is `1/2`, while the specification's quantity
`1 − editDistance / max(len(a), len(b), 1)` is `1 − 2/2 = 0`.  The two
quantities differ, so the Judge's ratio is not that quantity in any
normalized form. -/
theorem ratio_formula_cex :
    pyRatio "ab" "ba" = mkRat 1 2 ∧
    specRatio "ab" "ba" = 0 ∧
    pyRatio "ab" "ba" ≠ specRatio "ab" "ba" := by
  refine ⟨by decide, by decide, by decide⟩

/-- **C3, amended**: the ratio the Judge uses is the normalized indel
similarity of the two keys — `1` when both are empty, otherwise
`(|a| + |b| − indelDist(a,b)) / (|a| + |b|)`, equivalently
`2·lcsLen(a,b) / (|a| + |b|)` — not the Levenshtein-based
`1 − editDistance / max(len(a), len(b), 1)`. -/
theorem ratio_indel_lcs_form (a b : String) :
    pyRatio a b =
      if a.length + b.length = 0 then 1
      else 2 * (lcsLen a.data b.data : ℚ) / ((a.length + b.length : ℕ) : ℚ) := by
  by_cases h : a.length + b.length = 0
  · simp [pyRatio, h]
  · rw [if_neg h, pyRatio_eq_div a b h]
    have key : (indelDist a.data b.data : ℚ) + 2 * (lcsLen a.data b.data : ℚ) =
        ((a.length + b.length : ℕ) : ℚ) := by
      have := indelDist_add_two_lcs a.data b.data
      have hlen : a.data.length + b.data.length = a.length + b.length := rfl
      rw [hlen] at this
      exact_mod_cast congrArg (fun n : ℕ => (n : ℚ)) this
    have h3 : ((a.length + b.length : ℕ) : ℚ) - (indelDist a.data b.data : ℚ) =
        2 * (lcsLen a.data b.data : ℚ) := by linarith
    rw [h3]

/-! ## Claim C4: the candidate ordering -/

/-- The ordering property the specification claims for the scan sequence:
ascending by canonical key, ties between equal keys broken by id ascending.
(Spec-side definition, for comparison with what `sortData` produces.) -/
def keyIdOrdered : List Cand → Bool
  | [] => true
  | [_] => true
  | a :: b :: t =>
    (strLt a.clean b.clean || (decide (a.clean = b.clean) && decide (a.id ≤ b.id))) &&
      keyIdOrdered (b :: t)

/-- **C4, counterexample**: for the arrival order `[(2, "a"), (1, "a")]` the
scan sequence produced by `data.sort(key=lambda x: x['clean'])` keeps the
arrival order of the two equal-key records — ids `[2, 1]` — so it is *not*
ordered by `(canonicalKey, id)`: equal-key ties follow arrival order, not id
order. -/
theorem sort_tie_by_id_cex :
    (sortData [(2, "a"), (1, "a")]).map Cand.id = [2, 1] ∧
    keyIdOrdered (sortData [(2, "a"), (1, "a")]) = false := by
  refine ⟨by decide, by decide⟩

/-- **C4, amended**: for every input, the scan sequence is sorted ascending
by `canonicalKey` and is a permutation of the candidate set, and ties
between equal keys preserve the arrival order of the input (the sort is
stable): for every key `k`, the subsequence of candidates whose key is `k`
is exactly the input's subsequence with that key.  Ties are *not* broken by
id. -/
theorem sort_sorted_stable_perm (rows : List (Nat × String)) :
    (sortData rows).Pairwise (fun a b => a.clean ≤ b.clean) ∧
    (sortData rows).Perm (rows.map toCand) ∧
    ∀ k : String, (sortData rows).filter (fun c => decide (c.clean = k)) =
      (rows.map toCand).filter (fun c => decide (c.clean = k)) :=
  ⟨stSort_sorted _, stSort_perm _ _, fun k => filter_stSort k _⟩

/-! ## Claim C6: two records with the same canonical key -/

/-- **C6**: for an input of exactly two records whose texts normalize to the
same canonical key (with distinct ids), the final deletion set holds exactly
one of the two ids: the strictly shorter literal text's id when the lengths
differ, and — deterministically — the second (later-arriving) record's id on
an equal-length tie. -/
theorem two_record_dedup (i1 i2 : ℕ) (t1 t2 : String) (hid : i1 ≠ i2)
    (hkey : normalize_text t1 = normalize_text t2) :
    cleanScan [(i1, t1), (i2, t2)] =
      if t2.length ≤ t1.length then {i2} else {i1} := by
  have hlt : cleanLt (toCand (i2, t2)) (toCand (i1, t1)) = false := by
    show strLt (normalize_text t2) (normalize_text t1) = false
    rw [← hkey]
    exact strLt_self _
  have hsort : sortData [(i1, t1), (i2, t2)] = [toCand (i1, t1), toCand (i2, t2)] := by
    show stIns cleanLt (toCand (i1, t1)) (stIns cleanLt (toCand (i2, t2)) []) = _
    simp [stIns, hlt]
  unfold cleanScan cleanPass
  rw [hsort]
  have htake : ([toCand (i2, t2)] : List Cand).take WINDOW_SIZE = [toCand (i2, t2)] := by
    apply List.take_of_length_le
    simp [WINDOW_SIZE]
  simp only [outerScan, htake, List.take_nil]
  rw [if_neg (Finset.not_mem_empty _)]
  have hinner : innerScan SIMILARITY_THRESHOLD (toCand (i1, t1)) [toCand (i2, t2)] ∅ =
      if t2.length ≤ t1.length then ({i2} : Finset ℕ) else {i1} := by
    by_cases hlen : t2.length ≤ t1.length
    · simp [innerScan, toCand, hkey, hlen]
    · simp [innerScan, toCand, hkey, hlen]
  rw [hinner]
  by_cases hlen : t2.length ≤ t1.length
  · rw [if_pos hlen]
    simp [outerScan, innerScan, ite_self]
  · rw [if_neg hlen]
    simp [outerScan, innerScan, ite_self]

/-- Witness for **C6**, on the specification's own example:
`"No pain, no gain!"` (id 1, length 17) versus `"no pain no gain"` (id 2,
length 15) — both normalize to `"nopainnogain"`, and the shorter literal
text's id 2 is the one deleted. -/
theorem two_record_dedup_witness :
    cleanScan [(1, "No pain, no gain!"), (2, "no pain no gain")] = {2} := by
  have h := two_record_dedup 1 2 "No pain, no gain!" "no pain no gain" (by decide) (by decide)
  rw [if_pos (by decide)] at h
  exact h

/-! ## Claim C8: the confirmation-gated batched deletion -/

/-- The batched deletion (chunks of 900 ids) has the same effect as removing
every row whose id is in the list, in one sweep. -/
theorem runBatches_eq (ids : List ℕ) (table : List (ℕ × String)) :
    runBatches ids table = table.filter (fun r => decide (r.1 ∉ ids)) := by
  induction ids, table using runBatches.induct with
  | case1 table => simp [runBatches]
  | case2 i rest table ih =>
    rw [runBatches, ih]
    unfold deleteBatch
    rw [List.filter_filter]
    apply List.filter_congr
    intro x _
    have hsplit : x.1 ∈ (i :: rest) ↔
        x.1 ∈ (i :: rest).take 900 ∨ x.1 ∈ (i :: rest).drop 900 := by
      rw [← List.mem_append, List.take_append_drop]
    rw [← Bool.decide_and, decide_eq_decide, hsplit]
    tauto

/-- **C8**: the store is mutated exactly when the computed deletion count is
non-zero *and* the confirmation reply is the literal `"YES"`; in that case
every listed id's row is removed (in batches of at most 900), and in every
other case — empty deletion set, or any other reply — the table is returned
unchanged. -/
theorem deletion_gate (ids : List ℕ) (response : String) (table : List (ℕ × String)) :
    executeDeletion ids response table =
      if 0 < ids.length ∧ response = "YES" then
        table.filter (fun r => decide (r.1 ∉ ids))
      else table := by
  unfold executeDeletion
  by_cases h1 : 0 < ids.length <;> by_cases h2 : response = "YES" <;>
    simp [h1, h2, runBatches_eq]

/-! ## Claim C5: window boundedness -/

/-- An anchor whose key differs from every window entry's key, with every
ratio strictly below the threshold, adds nothing to the deletion set. -/
theorem innerScan_no_add (θ : ℚ) (a : Cand) :
    ∀ (l : List Cand) (dels : Finset ℕ),
      (∀ n ∈ l, a.clean ≠ n.clean ∧ pyRatio a.clean n.clean < θ) →
      innerScan θ a l dels = dels := by
  intro l
  induction l with
  | nil => intro dels _; rfl
  | cons n rest ih =>
    intro dels h
    obtain ⟨hne, hlt⟩ := h n (List.mem_cons_self n rest)
    have hrest := fun m hm => h m (List.mem_cons_of_mem n hm)
    by_cases hmem : n.id ∈ dels
    · simp only [innerScan, if_pos hmem]
      exact ih dels hrest
    · simp only [innerScan, if_neg hmem, if_neg hne, if_neg (not_le.2 hlt)]
      exact ih dels hrest

/-- If `x` is not yet marked, the anchor never exactly- or fuzzy-matches any
window entry carrying id `x`, and — in case the anchor itself carries id
`x` — no window entry exactly matches the anchor's key, then `x` is still
unmarked after the anchor's window scan. -/
theorem innerScan_not_mem (θ : ℚ) (a : Cand) (x : ℕ) :
    ∀ (l : List Cand) (dels : Finset ℕ), x ∉ dels →
      (∀ n ∈ l, n.id = x ∨ a.id = x → a.clean ≠ n.clean ∧ pyRatio a.clean n.clean < θ) →
      x ∉ innerScan θ a l dels := by
  intro l
  induction l with
  | nil => intro dels hx _; exact hx
  | cons n rest ih =>
    intro dels hx h
    have hrest := fun m hm => h m (List.mem_cons_of_mem n hm)
    have hn := h n (List.mem_cons_self n rest)
    by_cases hmem : n.id ∈ dels
    · simp only [innerScan, if_pos hmem]
      exact ih dels hx hrest
    · by_cases hkey : a.clean = n.clean
      · have hnx : n.id ≠ x := fun he => absurd hkey (hn (Or.inl he)).1
        have hax : a.id ≠ x := fun he => absurd hkey (hn (Or.inr he)).1
        by_cases hlen : n.text.length ≤ a.text.length
        · simp only [innerScan, if_neg hmem, if_pos hkey, if_pos hlen]
          exact ih _ (by simp [Finset.mem_insert, hx, hnx.symm]) hrest
        · simp only [innerScan, if_neg hmem, if_pos hkey, if_neg hlen]
          simp [Finset.mem_insert, hx, hax.symm]
      · by_cases hr : θ ≤ pyRatio a.clean n.clean
        · have hnx : n.id ≠ x := fun he => absurd hr (not_le.2 (hn (Or.inl he)).2)
          simp only [innerScan, if_neg hmem, if_neg hkey, if_pos hr]
          exact ih _ (by simp [Finset.mem_insert, hx, hnx.symm]) hrest
        · simp only [innerScan, if_neg hmem, if_neg hkey, if_neg hr]
          exact ih dels hx hrest

/-- Scanning a list `fs ++ [B]` of candidates never marks an id `x` that no
filler carries, provided no filler matches `B` exactly or fuzzily.  (`B`
itself sits at the end, so its own window is empty.) -/
theorem scan_tail_not_mem (θ : ℚ) (W : ℕ) (B : Cand) (x : ℕ) :
    ∀ (fs : List Cand) (dels : Finset ℕ), x ∉ dels →
      (∀ f ∈ fs, f.id ≠ x ∧ f.clean ≠ B.clean ∧ pyRatio f.clean B.clean < θ) →
      x ∉ outerScan θ W (fs ++ [B]) dels := by
  intro fs
  induction fs with
  | nil =>
    intro dels hx _
    simpa [outerScan, innerScan, ite_self] using hx
  | cons f fs ih =>
    intro dels hx h
    obtain ⟨hfid, hfB, hfr⟩ := h f (List.mem_cons_self f fs)
    have hrest := fun m hm => h m (List.mem_cons_of_mem f hm)
    simp only [List.cons_append, outerScan]
    apply ih _ ?_ hrest
    by_cases hm : f.id ∈ dels
    · simpa [hm] using hx
    · rw [if_neg hm]
      apply innerScan_not_mem θ f x _ dels hx
      intro n hn hdisj
      have hn' : n ∈ fs ++ [B] := List.take_subset _ _ hn
      rcases List.mem_append.1 hn' with hnf | hnB
      · rcases hdisj with h1 | h2
        · exact absurd h1 (hrest n hnf).1
        · exact absurd h2 hfid
      · have hB : n = B := by simpa using hnB
        subst hB
        exact ⟨hfB, hfr⟩

/-- **C5**: scanning a sequence in which two candidates `A` and `B` with the
same canonical key are separated by more than `W` positions (here: `A` at
position 0, `B` at position `|fillers| + 1` with `W ≤ |fillers|`), where the
intervening keys are pairwise distinct and strictly below the fuzzy
threshold with respect to both, never detects the pair: neither id enters
the deletion set.  `A`'s window is `(fillers ++ [B]).take W`, i.e. positions
`1 … W` only — the early-stop at the end of the sequence is the `take`'s
truncation — so `A` and `B` are never judged against each other. -/
theorem window_bounded (θ : ℚ) (W : ℕ) (A B : Cand) (fillers : List Cand)
    (hW : W ≤ fillers.length)
    (hkey : A.clean = B.clean)
    (hAB : A.id ≠ B.id)
    (hAfill : ∀ f ∈ fillers, A.clean ≠ f.clean ∧ pyRatio A.clean f.clean < θ)
    (hfillB : ∀ f ∈ fillers, f.clean ≠ B.clean ∧ pyRatio f.clean B.clean < θ)
    (hAid : ∀ f ∈ fillers, f.id ≠ A.id)
    (hBid : ∀ f ∈ fillers, f.id ≠ B.id)
    (hdist : fillers.Pairwise (fun a b => a.clean ≠ b.clean)) :
    A.id ∉ outerScan θ W (A :: (fillers ++ [B])) ∅ ∧
    B.id ∉ outerScan θ W (A :: (fillers ++ [B])) ∅ := by
  have hstep : outerScan θ W (A :: (fillers ++ [B])) ∅ =
      outerScan θ W (fillers ++ [B]) ∅ := by
    simp only [outerScan]
    rw [if_neg (Finset.not_mem_empty _)]
    congr 1
    apply innerScan_no_add
    intro n hn
    rw [List.take_append_of_le_length hW] at hn
    exact hAfill n (List.take_subset _ _ hn)
  rw [hstep]
  constructor
  · exact scan_tail_not_mem θ W B A.id fillers ∅ (Finset.not_mem_empty _)
      (fun f hf => ⟨hAid f hf, (hfillB f hf).1, (hfillB f hf).2⟩)
  · exact scan_tail_not_mem θ W B B.id fillers ∅ (Finset.not_mem_empty _)
      (fun f hf => ⟨hBid f hf, (hfillB f hf).1, (hfillB f hf).2⟩)

/-- Witness for **C5** with the default configuration: keys `"zz"` and
`"zz"` (ids 1 and 2) separated by the `W = 10` pairwise-distinct filler keys
`"a" … "j"`, each unrelated to `"zz"`; neither id 1 nor id 2 is deleted. -/
theorem window_bounded_witness :
    1 ∉ outerScan SIMILARITY_THRESHOLD WINDOW_SIZE
      (⟨1, "zz", "zz"⟩ :: ([⟨11, "a", "a"⟩, ⟨12, "b", "b"⟩, ⟨13, "c", "c"⟩, ⟨14, "d", "d"⟩,
        ⟨15, "e", "e"⟩, ⟨16, "f", "f"⟩, ⟨17, "g", "g"⟩, ⟨18, "h", "h"⟩, ⟨19, "i", "i"⟩,
        ⟨20, "j", "j"⟩] ++ [⟨2, "z z", "zz"⟩])) ∅ ∧
    2 ∉ outerScan SIMILARITY_THRESHOLD WINDOW_SIZE
      (⟨1, "zz", "zz"⟩ :: ([⟨11, "a", "a"⟩, ⟨12, "b", "b"⟩, ⟨13, "c", "c"⟩, ⟨14, "d", "d"⟩,
        ⟨15, "e", "e"⟩, ⟨16, "f", "f"⟩, ⟨17, "g", "g"⟩, ⟨18, "h", "h"⟩, ⟨19, "i", "i"⟩,
        ⟨20, "j", "j"⟩] ++ [⟨2, "z z", "zz"⟩])) ∅ := by
  exact window_bounded SIMILARITY_THRESHOLD WINDOW_SIZE ⟨1, "zz", "zz"⟩ ⟨2, "z z", "zz"⟩
    [⟨11, "a", "a"⟩, ⟨12, "b", "b"⟩, ⟨13, "c", "c"⟩, ⟨14, "d", "d"⟩, ⟨15, "e", "e"⟩,
     ⟨16, "f", "f"⟩, ⟨17, "g", "g"⟩, ⟨18, "h", "h"⟩, ⟨19, "i", "i"⟩, ⟨20, "j", "j"⟩]
    (by decide) rfl (by decide) (by decide) (by decide) (by decide) (by decide) (by decide)

/-! ## Claims C7 and C10: totality and strictness of the deletion set -/

/-- Every id the window scan of one anchor adds comes from the anchor or its
window (or was already marked). -/
theorem mem_innerScan (θ : ℚ) (a : Cand) :
    ∀ (l : List Cand) (dels : Finset ℕ) (x : ℕ), x ∈ innerScan θ a l dels →
      x = a.id ∨ x ∈ dels ∨ ∃ n ∈ l, x = n.id := by
  intro l
  induction l with
  | nil => intro dels x hx; exact Or.inr (Or.inl hx)
  | cons n rest ih =>
    intro dels x hx
    have lift : x = a.id ∨ x ∈ insert n.id dels ∨ (∃ m ∈ rest, x = m.id) →
        x = a.id ∨ x ∈ dels ∨ ∃ m ∈ n :: rest, x = m.id := by
      rintro (h | h | ⟨m, hm, he⟩)
      · exact Or.inl h
      · rcases Finset.mem_insert.1 h with h | h
        · exact Or.inr (Or.inr ⟨n, List.mem_cons_self n rest, h⟩)
        · exact Or.inr (Or.inl h)
      · exact Or.inr (Or.inr ⟨m, List.mem_cons_of_mem n hm, he⟩)
    have liftd : x = a.id ∨ x ∈ dels ∨ (∃ m ∈ rest, x = m.id) →
        x = a.id ∨ x ∈ dels ∨ ∃ m ∈ n :: rest, x = m.id := by
      rintro (h | h | ⟨m, hm, he⟩)
      · exact Or.inl h
      · exact Or.inr (Or.inl h)
      · exact Or.inr (Or.inr ⟨m, List.mem_cons_of_mem n hm, he⟩)
    by_cases hmem : n.id ∈ dels
    · simp only [innerScan, if_pos hmem] at hx
      exact liftd (ih dels x hx)
    · by_cases hkey : a.clean = n.clean
      · by_cases hlen : n.text.length ≤ a.text.length
        · simp only [innerScan, if_neg hmem, if_pos hkey, if_pos hlen] at hx
          exact lift (ih _ x hx)
        · simp only [innerScan, if_neg hmem, if_pos hkey, if_neg hlen] at hx
          rcases Finset.mem_insert.1 hx with h | h
          · exact Or.inl h
          · exact Or.inr (Or.inl h)
      · by_cases hr : θ ≤ pyRatio a.clean n.clean
        · simp only [innerScan, if_neg hmem, if_neg hkey, if_pos hr] at hx
          exact lift (ih _ x hx)
        · simp only [innerScan, if_neg hmem, if_neg hkey, if_neg hr] at hx
          exact liftd (ih dels x hx)

/-- Every id the whole scan marks comes from the scanned candidate list. -/
theorem mem_outerScan (θ : ℚ) (W : ℕ) :
    ∀ (l : List Cand) (dels : Finset ℕ) (x : ℕ), x ∈ outerScan θ W l dels →
      x ∈ dels ∨ ∃ c ∈ l, x = c.id := by
  intro l
  induction l with
  | nil => intro dels x hx; exact Or.inl hx
  | cons a rest ih =>
    intro dels x hx
    simp only [outerScan] at hx
    by_cases hmem : a.id ∈ dels
    · rw [if_pos hmem] at hx
      rcases ih dels x hx with h | ⟨c, hc, he⟩
      · exact Or.inl h
      · exact Or.inr ⟨c, List.mem_cons_of_mem a hc, he⟩
    · rw [if_neg hmem] at hx
      rcases ih _ x hx with h | ⟨c, hc, he⟩
      · rcases mem_innerScan θ a _ dels x h with h1 | h1 | ⟨n, hn, he⟩
        · exact Or.inr ⟨a, List.mem_cons_self a rest, h1⟩
        · exact Or.inl h1
        · exact Or.inr ⟨n, List.mem_cons_of_mem a (List.take_subset _ _ hn), he⟩
      · exact Or.inr ⟨c, List.mem_cons_of_mem a hc, he⟩

/-- The pass — whatever the threshold and window are — runs to completion
and only ever marks ids of input rows. -/
theorem cleanPass_subset (θ : ℚ) (W : ℕ) (rows : List (ℕ × String)) :
    cleanPass θ W rows ⊆ (rows.map Prod.fst).toFinset := by
  intro x hx
  rcases mem_outerScan θ W _ _ x hx with h | ⟨c, hc, he⟩
  · exact absurd h (Finset.not_mem_empty x)
  · have hmem : c ∈ rows.map toCand := (stSort_perm cleanLt _).subset hc
    rw [List.mem_map] at hmem
    obtain ⟨r, hr, rfl⟩ := hmem
    rw [List.mem_toFinset, List.mem_map]
    exact ⟨r, hr, he.symm⟩

/-- After one anchor's window scan there is always a survivor: the anchor
itself, or (when the anchor got deleted in the exact-match `else` branch)
the live longer-text neighbor that eliminated it. -/
theorem innerScan_exists (θ : ℚ) (a : Cand) :
    ∀ (l : List Cand) (dels : Finset ℕ),
      a.id ∉ dels → (∀ n ∈ l, n.id ≠ a.id) →
      ∃ w, (w = a ∨ w ∈ l) ∧ w.id ∉ innerScan θ a l dels := by
  intro l
  induction l with
  | nil => intro dels ha _; exact ⟨a, Or.inl rfl, ha⟩
  | cons n rest ih =>
    intro dels ha h
    have hna : n.id ≠ a.id := h n (List.mem_cons_self n rest)
    have hrest := fun m hm => h m (List.mem_cons_of_mem n hm)
    have ha' : a.id ∉ insert n.id dels := by
      simp [Finset.mem_insert, ha, hna.symm]
    have liftw : ∀ w : Cand, (w = a ∨ w ∈ rest) → (w = a ∨ w ∈ n :: rest) := by
      rintro w (h | h)
      · exact Or.inl h
      · exact Or.inr (List.mem_cons_of_mem n h)
    by_cases hmem : n.id ∈ dels
    · simp only [innerScan, if_pos hmem]
      obtain ⟨w, hw, hnot⟩ := ih dels ha hrest
      exact ⟨w, liftw w hw, hnot⟩
    · by_cases hkey : a.clean = n.clean
      · by_cases hlen : n.text.length ≤ a.text.length
        · simp only [innerScan, if_neg hmem, if_pos hkey, if_pos hlen]
          obtain ⟨w, hw, hnot⟩ := ih _ ha' hrest
          exact ⟨w, liftw w hw, hnot⟩
        · simp only [innerScan, if_neg hmem, if_pos hkey, if_neg hlen]
          refine ⟨n, Or.inr (List.mem_cons_self n rest), ?_⟩
          simp [Finset.mem_insert, hna, hmem]
      · by_cases hr : θ ≤ pyRatio a.clean n.clean
        · simp only [innerScan, if_neg hmem, if_neg hkey, if_pos hr]
          obtain ⟨w, hw, hnot⟩ := ih _ ha' hrest
          exact ⟨w, liftw w hw, hnot⟩
        · simp only [innerScan, if_neg hmem, if_neg hkey, if_neg hr]
          obtain ⟨w, hw, hnot⟩ := ih dels ha hrest
          exact ⟨w, liftw w hw, hnot⟩

/-- The survivor persists through the whole scan: if some listed id is
unmarked at the start, some listed id is still unmarked at the end
(ids are assumed pairwise distinct). -/
theorem outerScan_exists (θ : ℚ) (W : ℕ) :
    ∀ (l : List Cand) (dels : Finset ℕ),
      (l.map Cand.id).Nodup →
      (∃ r ∈ l, r.id ∉ dels) →
      ∃ r ∈ l, r.id ∉ outerScan θ W l dels := by
  intro l
  induction l with
  | nil => rintro dels _ ⟨r, hr, _⟩; exact absurd hr (List.not_mem_nil r)
  | cons a rest ih =>
    rintro dels hnodup ⟨r, hr, hrdel⟩
    rw [List.map_cons, List.nodup_cons] at hnodup
    obtain ⟨ha_not, hrest_nodup⟩ := hnodup
    simp only [outerScan]
    by_cases hmem : a.id ∈ dels
    · rw [if_pos hmem]
      have hr' : r ∈ rest := by
        rcases List.mem_cons.1 hr with rfl | h
        · exact absurd hmem hrdel
        · exact h
      obtain ⟨w, hw, hnot⟩ := ih dels hrest_nodup ⟨r, hr', hrdel⟩
      exact ⟨w, List.mem_cons_of_mem a hw, hnot⟩
    · rw [if_neg hmem]
      have hnoid : ∀ n ∈ rest.take W, n.id ≠ a.id := by
        intro n hn he
        exact ha_not (by rw [List.mem_map]; exact ⟨n, List.take_subset _ _ hn, he⟩)
      obtain ⟨w, hw, hwnot⟩ := innerScan_exists θ a (rest.take W) dels hmem hnoid
      rcases hw with rfl | hwmem
      · refine ⟨w, List.mem_cons_self w rest, fun hcon => ?_⟩
        rcases mem_outerScan θ W rest _ w.id hcon with h | ⟨c, hc, he⟩
        · exact hwnot h
        · exact ha_not (by rw [List.mem_map]; exact ⟨c, hc, he.symm⟩)
      · obtain ⟨v, hv, hvnot⟩ := ih _ hrest_nodup ⟨w, List.take_subset _ _ hwmem, hwnot⟩
        exact ⟨v, List.mem_cons_of_mem a hv, hvnot⟩

/-- **C10**: for a non-empty input with pairwise-distinct ids, the final
deletion set is a *strict* subset of the input ids — at least one record
always survives. -/
theorem deletion_strict_subset (rows : List (ℕ × String)) (hne : rows ≠ [])
    (hnodup : (rows.map Prod.fst).Nodup) :
    cleanScan rows ⊂ (rows.map Prod.fst).toFinset := by
  unfold cleanScan
  rw [Finset.ssubset_iff_of_subset (cleanPass_subset SIMILARITY_THRESHOLD WINDOW_SIZE rows)]
  have hperm : (sortData rows).Perm (rows.map toCand) := stSort_perm _ _
  have hids : ((sortData rows).map Cand.id).Perm (rows.map Prod.fst) := by
    have h2 := hperm.map Cand.id
    rw [List.map_map] at h2
    exact h2
  have hnodup' : ((sortData rows).map Cand.id).Nodup := hids.nodup_iff.2 hnodup
  have hsne : sortData rows ≠ [] := by
    intro h0
    apply hne
    have hlen := hperm.length_eq
    rw [h0] at hlen
    simp at hlen
    exact List.length_eq_zero.1 hlen.symm
  obtain ⟨c0, hc0⟩ := List.exists_mem_of_ne_nil _ hsne
  obtain ⟨r, hrmem, hrnot⟩ := outerScan_exists SIMILARITY_THRESHOLD WINDOW_SIZE
    (sortData rows) ∅ hnodup' ⟨c0, hc0, Finset.not_mem_empty _⟩
  refine ⟨r.id, ?_, hrnot⟩
  rw [List.mem_toFinset]
  exact hids.subset (List.mem_map_of_mem Cand.id hrmem)

/-- Witness for **C10**: two unrelated rows; the empty deletion set is a
strict subset of `{1, 2}`. -/
theorem deletion_strict_subset_witness :
    cleanScan [(1, "a"), (2, "b")] ⊂ ([(1, "a"), (2, "b")].map Prod.fst).toFinset :=
  deletion_strict_subset [(1, "a"), (2, "b")] (by decide) (by decide)

/-- **C7, counterexample**: no configuration validation exists.  With the
out-of-range threshold `1.5` the pass does not fail before reading records —
it reads, sorts and scans both rows and still deletes the exact duplicate
(id 2); with window size `0` (≤ 0) it likewise completes normally, returning
the empty set.  There is no configuration-error path in `clean_database` at
all. -/
theorem validation_absent_cex :
    cleanPass (mkRat 3 2) WINDOW_SIZE [(1, "No pain, no gain!"), (2, "no pain no gain")] = {2} ∧
    cleanPass SIMILARITY_THRESHOLD 0 [(1, "No pain, no gain!"), (2, "no pain no gain")] = ∅ := by
  refine ⟨by decide, by decide⟩

/-- **C7, amended**: the threshold and window size are module constants that
happen to be in range (`0 ≤ 0.90 ≤ 1`, `10 > 0`), but no validation is
performed: for *every* threshold and window — in range or not — the pass
runs to completion over all records and returns a deletion set drawn from
the input ids, rather than failing fast with a configuration error. -/
theorem config_unvalidated :
    (0 ≤ SIMILARITY_THRESHOLD ∧ SIMILARITY_THRESHOLD ≤ 1 ∧ 0 < WINDOW_SIZE) ∧
    ∀ (θ : ℚ) (W : ℕ) (rows : List (ℕ × String)),
      cleanPass θ W rows ⊆ (rows.map Prod.fst).toFinset := by
  refine ⟨⟨by decide, by decide, by decide⟩, fun θ W rows => cleanPass_subset θ W rows⟩
